import Mathlib

/-!
# goskrip: the two pixel filters and the encoder selection of `main.go`

A shallow embedding of `removeNoise`, `removeBackground`, `getExtension` and
`saveImage` from `src/main.go`, together with the parts of Go's `image` and
`image/color` packages those functions call (`image.Rectangle`, `image.Point`,
`image.NewRGBA`, `(*image.RGBA).Set`, `(*image.RGBA).RGBAAt`,
`color.RGBA.RGBA`).

Conventions of the embedding:
* Go `int` is `Int`, and memory is unbounded: `image.NewRGBA` panics on a
  negative width or height only. Go's `NewRGBA` also panics when the byte count
  `4 * Dx * Dy` overflows `int`; `image.Rectangle.Fits` names the rectangles
  where that check does not fire, and a statement that admits an empty raster
  (the one kind that can overflow without needing memory) assumes it;
* `uint32` and `uint8` values are `Nat`, every conversion and every addition
  that can wrap in Go carries its explicit `% 2^32` or `% 2^8`;
* a Go panic is `none` in an `Option`;
* `for` loops are left folds over the list of values the loop variable takes.
-/

/-! ## Machine integers -/

/-- Go conversion `uint8(v)` of an unsigned value: keep the low 8 bits. -/
def uint8 (v : Nat) : Nat := v % 256

/-- Go conversion to `uint32`, also the wrap-around of `uint32` arithmetic. -/
def uint32 (v : Nat) : Nat := v % 4294967296

/-- The values `lo, lo+1, ..., hi-1` a loop `for i := lo; i < hi; i++` takes. -/
def intRange (lo hi : Int) : List Int :=
  (List.range (hi - lo).toNat).map (fun (i : Nat) => lo + (i : Int))

/-! ## Package `image/color` -/

namespace color

/-- A value of the interface `color.Color`, represented by what its only method
`RGBA()` returns: four `uint32` samples (alpha-premultiplied, 16 bits used). -/
structure Color where
  r : Nat
  g : Nat
  b : Nat
  a : Nat
deriving DecidableEq, Repr

/-- Go struct `color.RGBA`: four `uint8` fields. -/
structure RGBA where
  R : Nat
  G : Nat
  B : Nat
  A : Nat
deriving DecidableEq, Repr

/-- Method `func (c RGBA) RGBA() (r, g, b, a uint32)`:
`r = uint32(c.R); r |= r << 8` and the same for the other three. -/
def RGBA.RGBA (c : RGBA) : Color :=
  { r := uint32 c.R ||| uint32 (uint32 c.R <<< 8)
    g := uint32 c.G ||| uint32 (uint32 c.G <<< 8)
    b := uint32 c.B ||| uint32 (uint32 c.B <<< 8)
    a := uint32 c.A ||| uint32 (uint32 c.A <<< 8) }

end color

/-! ## Package `image` -/

namespace image

/-- Go struct `image.Point`. -/
structure Point where
  X : Int
  Y : Int
deriving DecidableEq, Repr

/-- Go struct `image.Rectangle`: the points with `Min.X <= x < Max.X` and
`Min.Y <= y < Max.Y`. -/
structure Rectangle where
  Min : Point
  Max : Point
deriving DecidableEq, Repr

/-- Method `Rectangle.Dx`, the width. -/
def Rectangle.Dx (r : Rectangle) : Int := r.Max.X - r.Min.X

/-- Method `Rectangle.Dy`, the height. -/
def Rectangle.Dy (r : Rectangle) : Int := r.Max.Y - r.Min.Y

/-- Method `Point.In`: whether the point lies in the rectangle. -/
def Point.In (p : Point) (r : Rectangle) : Prop :=
  r.Min.X ≤ p.X ∧ p.X < r.Max.X ∧ r.Min.Y ≤ p.Y ∧ p.Y < r.Max.Y

instance (p : Point) (r : Rectangle) : Decidable (p.In r) :=
  inferInstanceAs (Decidable (_ ∧ _ ∧ _ ∧ _))

/-- A value of the interface `image.Image`: its `Bounds()` and its `At(x, y)`
(the colour model is never used by the program). -/
structure Image where
  Bounds : Rectangle
  At : Int → Int → color.Color

/-- Go struct `image.RGBA`: the pixel bytes, the stride between rows, the
bounds. -/
structure RGBA where
  Pix : List Nat
  Stride : Int
  Rect : Rectangle
deriving DecidableEq, Repr

/-- Function `image.NewRGBA`: a zeroed buffer of `4 * Dx * Dy` bytes. It panics
(`none`) when the rectangle has a negative width or height. The other panic of
Go's `pixelBufferLength`, when `4 * Dx * Dy` overflows `int`, is left out: it
fires only outside `Rectangle.Fits`. -/
def NewRGBA (r : Rectangle) : Option RGBA :=
  if r.Dx < 0 ∨ r.Dy < 0 then none
  else some
    { Pix := List.replicate (4 * r.Dx * r.Dy).toNat 0
      Stride := 4 * r.Dx
      Rect := r }

/-- Method `(*RGBA).PixOffset`: index of the first byte of pixel `(x, y)`. -/
def RGBA.PixOffset (p : RGBA) (x y : Int) : Int :=
  (y - p.Rect.Min.Y) * p.Stride + (x - p.Rect.Min.X) * 4

/-- Method `(*RGBA).RGBAAt`: the zero colour outside the bounds, the four bytes
at `PixOffset` inside. -/
def RGBA.RGBAAt (p : RGBA) (x y : Int) : color.RGBA :=
  if ¬ (Point.mk x y).In p.Rect then { R := 0, G := 0, B := 0, A := 0 }
  else
    let i := (p.PixOffset x y).toNat
    { R := p.Pix.getD i 0, G := p.Pix.getD (i + 1) 0
      B := p.Pix.getD (i + 2) 0, A := p.Pix.getD (i + 3) 0 }

/-- Method `(*RGBA).Set` for a `color.RGBA` argument (which the colour model
converts to itself): nothing outside the bounds, four bytes written at
`PixOffset` inside. -/
def RGBA.Set (p : RGBA) (x y : Int) (c : color.RGBA) : RGBA :=
  if ¬ (Point.mk x y).In p.Rect then p
  else
    let i := (p.PixOffset x y).toNat
    { p with
      Pix := (((p.Pix.set i c.R).set (i + 1) c.G).set (i + 2) c.B).set (i + 3) c.A }

/-- An `*image.RGBA` seen through the interface `image.Image`: `Bounds()` is
`Rect` and `At` is `RGBAAt`, whose `RGBA()` is `color.RGBA.RGBA`. -/
def RGBA.toImage (p : RGBA) : Image :=
  { Bounds := p.Rect, At := fun x y => (p.RGBAAt x y).RGBA }

end image

/-! ## `main.go` -/

/-- Constant `threshold` (line 15). -/
def threshold : Nat := 180

/-- Local `kernelSize` of `removeNoise` (line 192). -/
def kernelSize : Int := 3

/-- Local `halfKernelSize` of `removeNoise` (line 193). -/
def halfKernelSize : Int := kernelSize / 2

/-- The three accumulators `totalR, totalG, totalB` (line 197). -/
structure Totals where
  R : Nat
  G : Nat
  B : Nat
deriving DecidableEq, Repr

/-- Body of the innermost loop of `removeNoise` (lines 201-210): the sample at
`(x + kx, y + ky)` is added to the accumulators, with `uint32` wrap-around, when
`0 <= nx < width` and `0 <= ny < height`. -/
def kernelStep (inputImage : image.Image) (width height x y ky : Int)
    (tot : Totals) (kx : Int) : Totals :=
  let nx := x + kx
  let ny := y + ky
  if nx ≥ 0 ∧ nx < width ∧ ny ≥ 0 ∧ ny < height then
    let c := inputImage.At nx ny
    { R := uint32 (tot.R + c.r), G := uint32 (tot.G + c.g), B := uint32 (tot.B + c.b) }
  else tot

/-- The two kernel loops of `removeNoise` (lines 197-212), from zeroed
accumulators. -/
def kernelTotals (inputImage : image.Image) (width height x y : Int) : Totals :=
  (intRange (-halfKernelSize) (halfKernelSize + 1)).foldl
    (fun tot ky =>
      (intRange (-halfKernelSize) (halfKernelSize + 1)).foldl
        (kernelStep inputImage width height x y ky) tot)
    { R := 0, G := 0, B := 0 }

/-- The colour `removeNoise` passes to `Set` at `(x, y)` (lines 214-223). -/
def noisePixel (inputImage : image.Image) (width height x y : Int) : color.RGBA :=
  let tot := kernelTotals inputImage width height x y
  let avgR := tot.R / uint32 (kernelSize * kernelSize).toNat
  let avgG := tot.G / uint32 (kernelSize * kernelSize).toNat
  let avgB := tot.B / uint32 (kernelSize * kernelSize).toNat
  { R := uint8 (avgR >>> 8), G := uint8 (avgG >>> 8), B := uint8 (avgB >>> 8), A := 255 }

/-- Function `removeNoise` (lines 186-228). -/
def removeNoise (inputImage : image.Image) : Option image.RGBA :=
  let bounds := inputImage.Bounds
  let width := bounds.Dx
  let height := bounds.Dy
  (image.NewRGBA bounds).map fun outputImage =>
    (intRange 0 height).foldl
      (fun out y =>
        (intRange 0 width).foldl
          (fun out x => out.Set x y (noisePixel inputImage width height x y)) out)
      outputImage

/-- The colour `removeBackground` passes to `Set` for a pixel whose `RGBA()` is
`c` (lines 236-247). -/
def backgroundPixel (c : color.Color) : color.RGBA :=
  let r8 := uint8 (c.r >>> 8)
  let g8 := uint8 (c.g >>> 8)
  let b8 := uint8 (c.b >>> 8)
  let a8 := uint8 (c.a >>> 8)
  if r8 > threshold ∧ g8 > threshold ∧ b8 > threshold ∧ a8 > threshold then
    { R := 0, G := 0, B := 0, A := 0 }
  else
    { R := r8, G := g8, B := b8, A := a8 }

/-- Function `removeBackground` (lines 230-252). -/
def removeBackground (img : image.Image) : Option image.RGBA :=
  let bounds := img.Bounds
  (image.NewRGBA bounds).map fun newImg =>
    (intRange bounds.Min.Y bounds.Max.Y).foldl
      (fun out y =>
        (intRange bounds.Min.X bounds.Max.X).foldl
          (fun out x => out.Set x y (backgroundPixel (img.At x y))) out)
      newImg

namespace strings

/-- The pieces of a character list between occurrences of `sep`. -/
def splitChars (sep : Char) : List Char → List (List Char)
  | [] => [[]]
  | c :: cs =>
    if c = sep then [] :: splitChars sep cs
    else
      match splitChars sep cs with
      | [] => [[c]]
      | p :: ps => (c :: p) :: ps

/-- Function `strings.Split(s, sep)` for a separator `sep` of one character: the
substrings of `s` between the separators, `[s]` when there is none. -/
def Split (s : String) (sep : Char) : List String :=
  (splitChars sep s.data).map String.mk

end strings

/-- Function `getExtension` (lines 178-184). -/
def getExtension (filePath : String) : String :=
  let parts := strings.Split filePath '.'
  if parts.length > 1 then parts.getD (parts.length - 1) ""
  else ""

/-- The two encoders `saveImage` can call. -/
inductive Encoder where
  | jpeg
  | png
deriving DecidableEq, Repr

/-- What the outside world answers to `saveImage`: the error of `os.Create` and
the errors of `jpeg.Encode` and `png.Encode` (`none` is Go's `nil`). -/
structure SaveEnv where
  createErr : Option String
  jpegErr : Option String
  pngErr : Option String

/-- What `saveImage` did: the encoder calls it made, in order, and the error it
returned. -/
structure SaveResult (α : Type) where
  encoded : List (Encoder × α)
  err : Option String

/-- Function `saveImage` (lines 155-176). -/
def saveImage {α : Type} (env : SaveEnv) (img : α) (filePath : String) : SaveResult α :=
  match env.createErr with
  | some e => { encoded := [], err := some e }
  | none =>
    let ext := getExtension filePath
    if ext = "jpg" ∨ ext = "jpeg" then
      { encoded := [(Encoder.jpeg, img)], err := env.jpegErr }
    else if ext = "png" then
      { encoded := [(Encoder.png, img)], err := env.pngErr }
    else
      { encoded := [], err := some ("unsupported file format: " ++ ext) }

/-! ## Vocabulary of the statements -/

/-- The shape `NewRGBA` gives a buffer and `Set` keeps: a well-formed rectangle,
rows of `4 * Dx` bytes, `4 * Dx * Dy` bytes in all. -/
def image.RGBA.Valid (p : image.RGBA) : Prop :=
  0 ≤ p.Rect.Dx ∧ 0 ≤ p.Rect.Dy ∧ p.Stride = 4 * p.Rect.Dx ∧
    p.Pix.length = (4 * p.Rect.Dx * p.Rect.Dy).toNat

/-- The byte count of the pixel buffer passes the overflow check of Go's
`mul3NonNeg(4, Dx, Dy)`: `4 * Dx` fits in 64 bits and `4 * Dx * Dy` fits in a
non-negative `int`. With a width and height that are not negative, Go's
`NewRGBA` panics exactly when this fails. -/
def image.Rectangle.Fits (r : image.Rectangle) : Prop :=
  4 * r.Dx < 18446744073709551616 ∧ 4 * r.Dx * r.Dy < 9223372036854775808

instance (r : image.Rectangle) : Decidable r.Fits :=
  inferInstanceAs (Decidable (_ ∧ _))

/-- The four samples of a colour are 16-bit values, as the contract of
`Color.RGBA()` asks. -/
def color.Color.SixteenBit (c : color.Color) : Prop :=
  c.r ≤ 65535 ∧ c.g ≤ 65535 ∧ c.b ≤ 65535 ∧ c.a ≤ 65535

instance (c : color.Color) : Decidable c.SixteenBit :=
  inferInstanceAs (Decidable (_ ∧ _ ∧ _ ∧ _))

/-- What the kernel loops of `removeNoise` add up for one channel at `(x, y)`,
computed in the natural numbers (no wrap-around): the positions are those the
guard of line 204 lets through. -/
def loopSum (img : image.Image) (width height : Int) (ch : color.Color → Nat)
    (x y : Int) : Nat :=
  ∑ ky ∈ ({-1, 0, 1} : Finset Int), ∑ kx ∈ ({-1, 0, 1} : Finset Int),
    if 0 ≤ x + kx ∧ x + kx < width ∧ 0 ≤ y + ky ∧ y + ky < height then
      ch (img.At (x + kx) (y + ky))
    else 0

/-- The sum the specification describes: one channel of the input summed over
the positions `(x + kx, y + ky)`, `kx, ky` in `{-1, 0, 1}`, that lie inside the
image; positions outside contribute nothing. -/
def windowSum (img : image.Image) (ch : color.Color → Nat) (x y : Int) : Nat :=
  ∑ ky ∈ ({-1, 0, 1} : Finset Int), ∑ kx ∈ ({-1, 0, 1} : Finset Int),
    if (image.Point.mk (x + kx) (y + ky)).In img.Bounds then
      ch (img.At (x + kx) (y + ky))
    else 0

/-- The sum of the four samples of one channel at a corner `(cx, cy)` of the
image and its three neighbours towards the inside (`dx`, `dy` are `1` at the
low corner of an axis and `-1` at the high one). -/
def cornerSum (img : image.Image) (ch : color.Color → Nat) (cx cy dx dy : Int) : Nat :=
  ch (img.At cx cy) + ch (img.At (cx + dx) cy) + ch (img.At cx (cy + dy)) +
    ch (img.At (cx + dx) (cy + dy))

/-- The true unweighted average of those four samples, as an 8-bit value:
`(sum div 4) div 256`. -/
def cornerAverage (img : image.Image) (ch : color.Color → Nat) (cx cy dx dy : Int) : Nat :=
  cornerSum img ch cx cy dx dy / 4 / 256

/-! ## Concrete rasters -/

/-- A 2x2 raster at the origin: one orange pixel at `(0, 0)`, grey elsewhere. -/
def sampleRaster : image.Image :=
  { Bounds := { Min := { X := 0, Y := 0 }, Max := { X := 2, Y := 2 } }
    At := fun x y =>
      if x = 0 ∧ y = 0 then { r := 65535, g := 32896, b := 0, a := 65535 }
      else { r := 25700, g := 25700, b := 25700, a := 65535 } }

/-- A one-pixel `*image.RGBA` whose bounds start at `(1, 1)`, as `SubImage` on a
larger picture gives: the pixel is (200, 100, 50, 255). -/
def shiftedPixel : image.RGBA :=
  { Pix := [200, 100, 50, 255], Stride := 4
    Rect := { Min := { X := 1, Y := 1 }, Max := { X := 2, Y := 2 } } }

/-- A 1x1 raster at the origin, white and fully covered. -/
def whitePixel : image.Image :=
  { Bounds := { Min := { X := 0, Y := 0 }, Max := { X := 1, Y := 1 } }
    At := fun _ _ => (color.RGBA.mk 255 255 255 255).RGBA }

/-- A 1x1 raster at the origin with the pixel (90, 200, 7, 255). -/
def tealPixel : image.Image :=
  { Bounds := { Min := { X := 0, Y := 0 }, Max := { X := 1, Y := 1 } }
    At := fun _ _ => (color.RGBA.mk 90 200 7 255).RGBA }

/-- A 3x3 raster at the origin, every pixel (120, 60, 240, 255). -/
def uniformRaster : image.Image :=
  { Bounds := { Min := { X := 0, Y := 0 }, Max := { X := 3, Y := 3 } }
    At := fun _ _ => (color.RGBA.mk 120 60 240 255).RGBA }

/-- A 2x2 `*image.RGBA` at the origin with the pixels (200, 200, 200, 200),
(180, 200, 200, 200), (200, 200, 200, 100) and (10, 20, 30, 255). -/
def mattePicture : image.RGBA :=
  { Pix := [200, 200, 200, 200, 180, 200, 200, 200, 200, 200, 200, 100, 10, 20, 30, 255]
    Stride := 8
    Rect := { Min := { X := 0, Y := 0 }, Max := { X := 2, Y := 2 } } }

/-- A one-pixel `*image.RGBA` with bounds `(2,3)-(3,4)`: the pixel is
(90, 180, 27, 255). -/
def offsetPixel : image.RGBA :=
  { Pix := [90, 180, 27, 255], Stride := 4
    Rect := { Min := { X := 2, Y := 3 }, Max := { X := 3, Y := 4 } } }

/-- A 2x2 `*image.RGBA` with bounds `(1,1)-(3,3)`, every pixel black and fully
covered, (0, 0, 0, 255). Outside its bounds `At` is `color.RGBA{}`, whose
`RGBA()` is (0, 0, 0, 0). -/
def shiftedBlackRGBA : image.RGBA :=
  { Pix := [0, 0, 0, 255, 0, 0, 0, 255, 0, 0, 0, 255, 0, 0, 0, 255]
    Stride := 8
    Rect := { Min := { X := 1, Y := 1 }, Max := { X := 3, Y := 3 } } }

/-- A 2x2 `*image.YCbCr` with bounds `(1,1)-(3,3)`, every pixel black
(`Y = 0, Cb = Cr = 128`), seen through `image.Image`: inside the bounds `At`
has `RGBA()` (0, 0, 0, 65535), outside it is `color.YCbCr{}`, whose `RGBA()` is
(0, 34678, 0, 65535). -/
def shiftedBlackYCbCr : image.Image :=
  { Bounds := { Min := { X := 1, Y := 1 }, Max := { X := 3, Y := 3 } }
    At := fun x y =>
      if 1 ≤ x ∧ x < 3 ∧ 1 ≤ y ∧ y < 3 then { r := 0, g := 0, b := 0, a := 65535 }
      else { r := 0, g := 34678, b := 0, a := 65535 } }

/-! ## The pixel buffer -/

namespace image

theorem NewRGBA_eq_some {r : Rectangle} (hx : 0 ≤ r.Dx) (hy : 0 ≤ r.Dy) :
    NewRGBA r = some
      { Pix := List.replicate (4 * r.Dx * r.Dy).toNat 0, Stride := 4 * r.Dx, Rect := r } := by
  unfold NewRGBA
  rw [if_neg]
  omega

theorem NewRGBA_valid {r : Rectangle} {p : RGBA} (h : NewRGBA r = some p) :
    p.Valid ∧ p.Rect = r := by
  unfold NewRGBA at h
  split at h
  · cases h
  · rename_i hneg
    cases h
    refine ⟨⟨?_, ?_, rfl, ?_⟩, rfl⟩
    · show 0 ≤ r.Dx
      omega
    · show 0 ≤ r.Dy
      omega
    · simp

theorem RGBA.Set_Rect (p : RGBA) (x y : Int) (c : color.RGBA) :
    (p.Set x y c).Rect = p.Rect := by
  unfold RGBA.Set
  split <;> rfl

theorem RGBA.Set_Stride (p : RGBA) (x y : Int) (c : color.RGBA) :
    (p.Set x y c).Stride = p.Stride := by
  unfold RGBA.Set
  split <;> rfl

theorem RGBA.Set_valid {p : RGBA} (hp : p.Valid) (x y : Int) (c : color.RGBA) :
    (p.Set x y c).Valid := by
  unfold RGBA.Valid
  rw [RGBA.Set_Rect, RGBA.Set_Stride]
  refine ⟨hp.1, hp.2.1, hp.2.2.1, ?_⟩
  rw [← hp.2.2.2]
  unfold RGBA.Set
  split
  · rfl
  · simp

/-- Pixel number of an in-bounds point, row by row. -/
theorem RGBA.PixOffset_eq {p : RGBA} (hp : p.Valid) (x y : Int) :
    p.PixOffset x y = 4 * ((y - p.Rect.Min.Y) * p.Rect.Dx + (x - p.Rect.Min.X)) := by
  unfold RGBA.PixOffset
  rw [hp.2.2.1]
  ring

theorem RGBA.PixOffset_bounds {p : RGBA} (hp : p.Valid) {x y : Int}
    (hin : (Point.mk x y).In p.Rect) :
    0 ≤ p.PixOffset x y ∧ (p.PixOffset x y).toNat + 4 ≤ p.Pix.length := by
  obtain ⟨h1, h2, h3, h4⟩ := hin
  simp only at h1 h2 h3 h4
  rw [RGBA.PixOffset_eq hp, hp.2.2.2]
  have hw : x - p.Rect.Min.X < p.Rect.Dx := by unfold Rectangle.Dx; omega
  have hh : y - p.Rect.Min.Y + 1 ≤ p.Rect.Dy := by unfold Rectangle.Dy; omega
  have hw0 := hp.1
  have ha : 0 ≤ y - p.Rect.Min.Y := by omega
  have hb : 0 ≤ x - p.Rect.Min.X := by omega
  have hm : 0 ≤ (y - p.Rect.Min.Y) * p.Rect.Dx := Int.mul_nonneg ha hw0
  have hm2 : (y - p.Rect.Min.Y + 1) * p.Rect.Dx ≤ p.Rect.Dy * p.Rect.Dx :=
    Int.mul_le_mul_of_nonneg_right hh hw0
  have e1 : (y - p.Rect.Min.Y + 1) * p.Rect.Dx
      = (y - p.Rect.Min.Y) * p.Rect.Dx + p.Rect.Dx := by ring
  have e2 : 4 * p.Rect.Dx * p.Rect.Dy = 4 * (p.Rect.Dy * p.Rect.Dx) := by ring
  rw [e2]
  generalize (y - p.Rect.Min.Y) * p.Rect.Dx = m at *
  generalize p.Rect.Dy * p.Rect.Dx = n at *
  omega

/-- Distinct in-bounds points have byte ranges four apart. -/
theorem RGBA.PixOffset_apart {p : RGBA} (hp : p.Valid) {x y u v : Int}
    (h1 : (Point.mk x y).In p.Rect) (h2 : (Point.mk u v).In p.Rect)
    (hne : ¬ (x = u ∧ y = v)) :
    (p.PixOffset x y).toNat + 4 ≤ (p.PixOffset u v).toNat ∨
      (p.PixOffset u v).toNat + 4 ≤ (p.PixOffset x y).toNat := by
  have b1 := (RGBA.PixOffset_bounds hp h1).1
  have b2 := (RGBA.PixOffset_bounds hp h2).1
  rw [RGBA.PixOffset_eq hp] at b1 b2 ⊢
  rw [RGBA.PixOffset_eq hp]
  obtain ⟨a1, a2, a3, a4⟩ := h1
  obtain ⟨c1, c2, c3, c4⟩ := h2
  simp only at a1 a2 a3 a4 c1 c2 c3 c4
  have hw0 := hp.1
  have hxw : x - p.Rect.Min.X < p.Rect.Dx := by unfold Rectangle.Dx; omega
  have huw : u - p.Rect.Min.X < p.Rect.Dx := by unfold Rectangle.Dx; omega
  rcases lt_trichotomy y v with hlt | heq | hgt
  · left
    have hm : (y - p.Rect.Min.Y + 1) * p.Rect.Dx ≤ (v - p.Rect.Min.Y) * p.Rect.Dx :=
      Int.mul_le_mul_of_nonneg_right (by omega) hw0
    have e1 : (y - p.Rect.Min.Y + 1) * p.Rect.Dx
        = (y - p.Rect.Min.Y) * p.Rect.Dx + p.Rect.Dx := by ring
    rw [e1] at hm
    generalize (y - p.Rect.Min.Y) * p.Rect.Dx = m at *
    generalize (v - p.Rect.Min.Y) * p.Rect.Dx = n at *
    omega
  · subst heq
    have hxu : x ≠ u := fun h => hne ⟨h, rfl⟩
    generalize (y - p.Rect.Min.Y) * p.Rect.Dx = m at *
    omega
  · right
    have hm : (v - p.Rect.Min.Y + 1) * p.Rect.Dx ≤ (y - p.Rect.Min.Y) * p.Rect.Dx :=
      Int.mul_le_mul_of_nonneg_right (by omega) hw0
    have e1 : (v - p.Rect.Min.Y + 1) * p.Rect.Dx
        = (v - p.Rect.Min.Y) * p.Rect.Dx + p.Rect.Dx := by ring
    rw [e1] at hm
    generalize (y - p.Rect.Min.Y) * p.Rect.Dx = m at *
    generalize (v - p.Rect.Min.Y) * p.Rect.Dx = n at *
    omega

/-- Reading back the pixel just written. -/
theorem RGBA.RGBAAt_Set_same {p : RGBA} (hp : p.Valid) {x y : Int}
    (hin : (Point.mk x y).In p.Rect) (c : color.RGBA) :
    (p.Set x y c).RGBAAt x y = c := by
  have hb := (RGBA.PixOffset_bounds hp hin).2
  unfold RGBA.RGBAAt
  rw [RGBA.Set_Rect, if_neg (not_not.mpr hin)]
  have hoff : (p.Set x y c).PixOffset x y = p.PixOffset x y := by
    unfold RGBA.PixOffset
    rw [RGBA.Set_Rect, RGBA.Set_Stride]
  simp only [hoff]
  unfold RGBA.Set
  rw [if_neg (not_not.mpr hin)]
  generalize (p.PixOffset x y).toNat = i at *
  cases c
  simp only [List.getD_eq_getElem?_getD, List.getElem?_set, List.length_set]
  simp
  refine ⟨?_, ?_, ?_, ?_⟩ <;> (rw [if_pos (by omega)]; rfl)

/-- Writing one pixel leaves every other pixel as it was. -/
theorem RGBA.RGBAAt_Set_other {p : RGBA} (hp : p.Valid) {x y u v : Int}
    (hne : ¬ (x = u ∧ y = v)) (c : color.RGBA) :
    (p.Set x y c).RGBAAt u v = p.RGBAAt u v := by
  by_cases hin : (Point.mk x y).In p.Rect
  · by_cases hin2 : (Point.mk u v).In p.Rect
    · have hap := RGBA.PixOffset_apart hp hin hin2 hne
      unfold RGBA.RGBAAt
      rw [RGBA.Set_Rect, if_neg (not_not.mpr hin2), if_neg (not_not.mpr hin2)]
      have hoff : (p.Set x y c).PixOffset u v = p.PixOffset u v := by
        unfold RGBA.PixOffset
        rw [RGBA.Set_Rect, RGBA.Set_Stride]
      simp only [hoff]
      unfold RGBA.Set
      rw [if_neg (not_not.mpr hin)]
      generalize (p.PixOffset x y).toNat = i at *
      generalize (p.PixOffset u v).toNat = j at *
      simp only [List.getD_eq_getElem?_getD]
      have e0 : ∀ k, k < 4 → ((((p.Pix.set i c.R).set (i + 1) c.G).set (i + 2) c.B).set
          (i + 3) c.A)[j + k]? = p.Pix[j + k]? := by
        intro k hk
        rw [List.getElem?_set_ne (by omega), List.getElem?_set_ne (by omega),
          List.getElem?_set_ne (by omega), List.getElem?_set_ne (by omega)]
      have e00 : ((((p.Pix.set i c.R).set (i + 1) c.G).set (i + 2) c.B).set
          (i + 3) c.A)[j]? = p.Pix[j]? := e0 0 (by omega)
      rw [e00, e0 1 (by omega), e0 2 (by omega), e0 3 (by omega)]
    · unfold RGBA.RGBAAt
      rw [RGBA.Set_Rect, if_pos hin2, if_pos hin2]
  · unfold RGBA.Set
    rw [if_pos hin]

theorem RGBAAt_NewRGBA {r : Rectangle} {p : RGBA} (h : NewRGBA r = some p) (x y : Int) :
    p.RGBAAt x y = { R := 0, G := 0, B := 0, A := 0 } := by
  unfold NewRGBA at h
  split at h
  · cases h
  · cases h
    unfold RGBA.RGBAAt
    split
    · rfl
    · simp only [List.getD_eq_getElem?_getD, List.getElem?_replicate]
      congr 1 <;> (split <;> rfl)

end image

/-- Two buffers of the shape `NewRGBA` gives, with the same bounds and the same
pixel at every position, are the same value. -/
theorem image.RGBA.eq_of_pixels {p q : image.RGBA} (hp : p.Valid) (hq : q.Valid)
    (hr : p.Rect = q.Rect) (h : ∀ x y, p.RGBAAt x y = q.RGBAAt x y) : p = q := by
  obtain ⟨pw, ph, ps, pl⟩ := hp
  obtain ⟨_, _, qs, ql⟩ := hq
  have hstride : p.Stride = q.Stride := by rw [ps, qs, hr]
  have hlen : p.Pix.length = q.Pix.length := by rw [pl, ql, hr]
  have hpix : p.Pix = q.Pix := by
    apply List.ext_getElem hlen
    intro i h1 h2
    -- the pixel that byte `i` belongs to
    obtain ⟨w, hw⟩ := Int.eq_ofNat_of_zero_le pw
    obtain ⟨hh, hhh⟩ := Int.eq_ofNat_of_zero_le ph
    have hl : p.Pix.length = 4 * w * hh := by
      rw [pl, hw, hhh]
      have : (4 * (w : Int) * (hh : Int)) = ((4 * w * hh : Nat) : Int) := by push_cast; ring
      rw [this, Int.toNat_ofNat]
    have hi : i < 4 * w * hh := hl ▸ h1
    have hwpos : 0 < w := by
      rcases Nat.eq_zero_or_pos w with h0 | h0
      · rw [h0] at hi; simp at hi
      · exact h0
    have hk : i / 4 < w * hh := by
      rw [Nat.div_lt_iff_lt_mul (by decide)]
      calc i < 4 * w * hh := hi
        _ = w * hh * 4 := by ring
    have ha : i / 4 / w < hh := by
      rw [Nat.div_lt_iff_lt_mul hwpos]
      calc i / 4 < w * hh := hk
        _ = hh * w := Nat.mul_comm _ _
    have hb : i / 4 % w < w := Nat.mod_lt _ hwpos
    have hdm : i / 4 / w * w + i / 4 % w = i / 4 := Nat.div_add_mod' _ _
    generalize i / 4 / w = a at ha hdm
    generalize i / 4 % w = b at hb hdm
    have hin : (image.Point.mk (p.Rect.Min.X + (b : Int))
        (p.Rect.Min.Y + (a : Int))).In p.Rect := by
      unfold image.Rectangle.Dx at hw
      unfold image.Rectangle.Dy at hhh
      refine ⟨?_, ?_, ?_, ?_⟩ <;> dsimp only <;> omega
    have hoffp : (p.PixOffset (p.Rect.Min.X + (b : Int))
        (p.Rect.Min.Y + (a : Int))).toNat = 4 * (i / 4) := by
      unfold image.RGBA.PixOffset
      rw [ps, hw]
      have : (p.Rect.Min.Y + (a : Int) - p.Rect.Min.Y) * (4 * (w : Int)) +
          (p.Rect.Min.X + (b : Int) - p.Rect.Min.X) * 4 =
          ((4 * (a * w + b) : Nat) : Int) := by
        push_cast
        ring
      rw [this, Int.toNat_ofNat, hdm]
    have hoffq : (q.PixOffset (p.Rect.Min.X + (b : Int))
        (p.Rect.Min.Y + (a : Int))).toNat = 4 * (i / 4) := by
      rw [← hoffp]
      unfold image.RGBA.PixOffset
      rw [hstride, hr]
    have hxy := h (p.Rect.Min.X + (b : Int))
      (p.Rect.Min.Y + (a : Int))
    unfold image.RGBA.RGBAAt at hxy
    rw [if_neg (not_not.mpr hin), if_neg (not_not.mpr (hr ▸ hin))] at hxy
    dsimp only at hxy
    rw [hoffp, hoffq] at hxy
    injection hxy with e0 e1 e2 e3
    have hget : ∀ (l : List Nat) (n : Nat) (hn : n < l.length),
        l[n] = l.getD n 0 := by
      intro l n hn
      rw [List.getD_eq_getElem?_getD, List.getElem?_eq_getElem hn]
      rfl
    rw [hget _ _ h1, hget _ _ h2]
    have hj : i = 4 * (i / 4) ∨ i = 4 * (i / 4) + 1 ∨ i = 4 * (i / 4) + 2 ∨
        i = 4 * (i / 4) + 3 := by omega
    rcases hj with hj | hj | hj | hj
    · rw [hj]; exact e0
    · rw [hj]; exact e1
    · rw [hj]; exact e2
    · rw [hj]; exact e3
  cases p
  cases q
  simp only at hstride hr hpix
  rw [hstride, hr, hpix]

theorem mem_intRange (lo hi i : Int) : i ∈ intRange lo hi ↔ lo ≤ i ∧ i < hi := by
  unfold intRange
  simp only [List.mem_map, List.mem_range]
  constructor
  · rintro ⟨n, hn, rfl⟩
    omega
  · rintro ⟨h1, h2⟩
    exact ⟨(i - lo).toNat, by omega, by omega⟩

/-- One row of a filter's loop: the pixels of row `y` in the columns visited get
their colour, every other pixel is left alone. -/
theorem foldl_Set_row (f : Int → color.RGBA) (y : Int) (cols : List Int) :
    ∀ out : image.RGBA, out.Valid →
      (cols.foldl (fun o x => o.Set x y (f x)) out).Valid ∧
      (cols.foldl (fun o x => o.Set x y (f x)) out).Rect = out.Rect ∧
      ∀ u v, (cols.foldl (fun o x => o.Set x y (f x)) out).RGBAAt u v =
        if v = y ∧ u ∈ cols ∧ (image.Point.mk u v).In out.Rect then f u
        else out.RGBAAt u v := by
  induction cols with
  | nil =>
    intro out hv
    refine ⟨hv, rfl, ?_⟩
    intro u v
    simp
  | cons c cs ih =>
    intro out hv
    obtain ⟨h1, h2, h3⟩ := ih (out.Set c y (f c)) (image.RGBA.Set_valid hv c y (f c))
    rw [image.RGBA.Set_Rect] at h2 h3
    refine ⟨h1, h2, ?_⟩
    intro u v
    rw [List.foldl_cons, h3 u v]
    by_cases hA : v = y ∧ u ∈ cs ∧ (image.Point.mk u v).In out.Rect
    · rw [if_pos hA, if_pos ⟨hA.1, List.mem_cons_of_mem _ hA.2.1, hA.2.2⟩]
    · rw [if_neg hA]
      by_cases hB : c = u ∧ y = v
      · obtain ⟨rfl, rfl⟩ := hB
        by_cases hin : (image.Point.mk c y).In out.Rect
        · rw [image.RGBA.RGBAAt_Set_same hv hin, if_pos ⟨rfl, List.mem_cons_self _ _, hin⟩]
        · rw [if_neg (fun h => hin h.2.2)]
          unfold image.RGBA.Set
          rw [if_pos hin]
      · rw [image.RGBA.RGBAAt_Set_other hv hB, if_neg]
        rintro ⟨hvy, hmem, hin⟩
        rcases List.mem_cons.mp hmem with hc | hc
        · exact hB ⟨hc.symm, hvy.symm⟩
        · exact hA ⟨hvy, hc, hin⟩

/-- The two nested pixel loops of a filter: every in-bounds pixel whose row and
column are visited gets its colour, every other pixel is left alone. -/
theorem foldl_Set_grid (f : Int → Int → color.RGBA) (cols rows : List Int) :
    ∀ out : image.RGBA, out.Valid →
      (rows.foldl (fun o y => cols.foldl (fun o x => o.Set x y (f x y)) o) out).Valid ∧
      (rows.foldl (fun o y => cols.foldl (fun o x => o.Set x y (f x y)) o) out).Rect
        = out.Rect ∧
      ∀ u v, (rows.foldl (fun o y => cols.foldl (fun o x => o.Set x y (f x y)) o)
          out).RGBAAt u v =
        if v ∈ rows ∧ u ∈ cols ∧ (image.Point.mk u v).In out.Rect then f u v
        else out.RGBAAt u v := by
  induction rows with
  | nil =>
    intro out hv
    refine ⟨hv, rfl, ?_⟩
    intro u v
    simp
  | cons r rs ih =>
    intro out hv
    obtain ⟨g1, g2, g3⟩ := foldl_Set_row (fun x => f x r) r cols out hv
    obtain ⟨h1, h2, h3⟩ := ih _ g1
    rw [g2] at h2 h3
    refine ⟨h1, h2, ?_⟩
    intro u v
    rw [List.foldl_cons, h3 u v, g3 u v]
    by_cases hA : v ∈ rs ∧ u ∈ cols ∧ (image.Point.mk u v).In out.Rect
    · rw [if_pos hA, if_pos ⟨List.mem_cons_of_mem _ hA.1, hA.2⟩]
    · rw [if_neg hA]
      by_cases hB : v = r ∧ u ∈ cols ∧ (image.Point.mk u v).In out.Rect
      · rw [if_pos hB, if_pos ⟨hB.1 ▸ List.mem_cons_self _ _, hB.2⟩, hB.1]
      · rw [if_neg hB, if_neg]
        rintro ⟨hmem, hrest⟩
        rcases List.mem_cons.mp hmem with hc | hc
        · exact hB ⟨hc, hrest⟩
        · exact hA ⟨hc, hrest⟩

/-- What `removeNoise` returns: it does return when the bounds are well formed,
the result has the input's bounds, and its pixel at `(u, v)` is the averaged
colour when `(u, v)` is both visited by the loops (`0 <= u < width`,
`0 <= v < height`) and inside the bounds, the zero colour otherwise. -/
theorem removeNoise_pixels (img : image.Image)
    (hx : 0 ≤ img.Bounds.Dx) (hy : 0 ≤ img.Bounds.Dy) :
    ∃ out, removeNoise img = some out ∧ out.Valid ∧ out.Rect = img.Bounds ∧
      ∀ u v, out.RGBAAt u v =
        if (0 ≤ v ∧ v < img.Bounds.Dy) ∧ (0 ≤ u ∧ u < img.Bounds.Dx) ∧
            (image.Point.mk u v).In img.Bounds then
          noisePixel img img.Bounds.Dx img.Bounds.Dy u v
        else { R := 0, G := 0, B := 0, A := 0 } := by
  have hnew := image.NewRGBA_eq_some hx hy
  obtain ⟨hv, hr⟩ := image.NewRGBA_valid hnew
  obtain ⟨h1, h2, h3⟩ := foldl_Set_grid
    (fun x y => noisePixel img img.Bounds.Dx img.Bounds.Dy x y)
    (intRange 0 img.Bounds.Dx) (intRange 0 img.Bounds.Dy) _ hv
  refine ⟨_, ?_, h1, h2.trans hr, ?_⟩
  · unfold removeNoise
    simp only [hnew, Option.map_some']
  · intro u v
    rw [h3 u v, image.RGBAAt_NewRGBA hnew]
    simp only [mem_intRange]

/-- What `removeBackground` returns: it does return when the bounds are well
formed, the result has the input's bounds, and its pixel at `(u, v)` is the
matte of the input pixel inside the bounds, the zero colour outside. -/
theorem removeBackground_pixels (img : image.Image)
    (hx : 0 ≤ img.Bounds.Dx) (hy : 0 ≤ img.Bounds.Dy) :
    ∃ out, removeBackground img = some out ∧ out.Valid ∧ out.Rect = img.Bounds ∧
      ∀ u v, out.RGBAAt u v =
        if (image.Point.mk u v).In img.Bounds then backgroundPixel (img.At u v)
        else { R := 0, G := 0, B := 0, A := 0 } := by
  have hnew := image.NewRGBA_eq_some hx hy
  obtain ⟨hv, hr⟩ := image.NewRGBA_valid hnew
  obtain ⟨h1, h2, h3⟩ := foldl_Set_grid
    (fun x y => backgroundPixel (img.At x y))
    (intRange img.Bounds.Min.X img.Bounds.Max.X)
    (intRange img.Bounds.Min.Y img.Bounds.Max.Y) _ hv
  refine ⟨_, ?_, h1, h2.trans hr, ?_⟩
  · unfold removeBackground
    simp only [hnew, Option.map_some']
  · intro u v
    rw [h3 u v, image.RGBAAt_NewRGBA hnew]
    simp only [mem_intRange]
    by_cases hin : (image.Point.mk u v).In img.Bounds
    · obtain ⟨a1, a2, a3, a4⟩ := hin
      rw [if_pos ⟨⟨a3, a4⟩, ⟨a1, a2⟩, a1, a2, a3, a4⟩, if_pos ⟨a1, a2, a3, a4⟩]
    · rw [if_neg (fun h => hin h.2.2), if_neg hin]

theorem kernel_range : intRange (-halfKernelSize) (halfKernelSize + 1) = [-1, 0, 1] := by
  decide

theorem sum_kernel (f : Int → Nat) :
    ∑ k ∈ ({-1, 0, 1} : Finset Int), f k = f (-1) + (f 0 + f 1) := by
  rw [Finset.sum_insert (by decide), Finset.sum_insert (by decide), Finset.sum_singleton]

/-- A loop that adds `g k` to one `uint32` accumulator at every step adds the
sum of the `g k`, as long as the largest possible total fits in 32 bits. -/
theorem foldl_wrap_sum {σ : Type} (sel : σ → Nat) (step : σ → Int → σ) (g : Int → Nat)
    (M : Nat) (hg : ∀ k, g k ≤ M)
    (hstep : ∀ t k, sel t + M < 4294967296 → sel (step t k) = sel t + g k) :
    ∀ (L : List Int) (t : σ), sel t + M * L.length < 4294967296 →
      sel (L.foldl step t) = sel t + (L.map g).sum := by
  intro L
  induction L with
  | nil => intro t _; simp
  | cons k ks ih =>
    intro t ht
    have hlen : M * (k :: ks).length = M * ks.length + M := by
      rw [List.length_cons, Nat.mul_succ]
    rw [hlen] at ht
    have h1 := hstep t k (by omega)
    have hk := hg k
    rw [List.foldl_cons, ih (step t k) (by omega), h1, List.map_cons, List.sum_cons]
    omega

theorem sum_map_le (g : Int → Nat) (M : Nat) (hg : ∀ k, g k ≤ M) (L : List Int) :
    (L.map g).sum ≤ M * L.length := by
  induction L with
  | nil => simp
  | cons k ks ih =>
    have := hg k
    rw [List.map_cons, List.sum_cons, List.length_cons, Nat.mul_succ]
    omega

/-- One channel of the kernel loops: when the samples read are 16-bit, the
wrapping accumulator holds the exact sum, which is at most `9 * 65535`. -/
theorem kernelTotals_channel (img : image.Image) (width height x y : Int)
    (sel : Totals → Nat) (ch : color.Color → Nat)
    (hsel : ∀ ky tot kx, sel (kernelStep img width height x y ky tot kx) =
      if x + kx ≥ 0 ∧ x + kx < width ∧ y + ky ≥ 0 ∧ y + ky < height then
        uint32 (sel tot + ch (img.At (x + kx) (y + ky)))
      else sel tot)
    (h0 : sel { R := 0, G := 0, B := 0 } = 0)
    (h16 : ∀ u v, 0 ≤ u → u < width → 0 ≤ v → v < height → ch (img.At u v) ≤ 65535) :
    sel (kernelTotals img width height x y) = loopSum img width height ch x y ∧
      loopSum img width height ch x y ≤ 9 * 65535 := by
  have hg : ∀ ky kx, (if 0 ≤ x + kx ∧ x + kx < width ∧ 0 ≤ y + ky ∧ y + ky < height then
      ch (img.At (x + kx) (y + ky)) else 0) ≤ 65535 := by
    intro ky kx
    split
    · rename_i h
      exact h16 _ _ h.1 h.2.1 h.2.2.1 h.2.2.2
    · omega
  have hinner : ∀ ky t, sel t + 65535 * 3 < 4294967296 →
      sel (List.foldl (kernelStep img width height x y ky) t [-1, 0, 1]) =
        sel t + ([-1, 0, 1].map (fun kx =>
          if 0 ≤ x + kx ∧ x + kx < width ∧ 0 ≤ y + ky ∧ y + ky < height then
            ch (img.At (x + kx) (y + ky)) else 0)).sum := by
    intro ky t ht
    refine foldl_wrap_sum sel _ _ 65535 (hg ky) ?_ [-1, 0, 1] t ht
    intro t k hk
    rw [hsel]
    have := hg ky k
    split
    · rename_i h
      rw [if_pos h] at this
      unfold uint32
      omega
    · rfl
  have hrow : ∀ ky, ([-1, 0, 1].map (fun kx =>
      if 0 ≤ x + kx ∧ x + kx < width ∧ 0 ≤ y + ky ∧ y + ky < height then
        ch (img.At (x + kx) (y + ky)) else 0)).sum ≤ 65535 * 3 := fun ky =>
    sum_map_le _ 65535 (hg ky) [-1, 0, 1]
  have houter := foldl_wrap_sum sel
    (fun tot ky => List.foldl (kernelStep img width height x y ky) tot [-1, 0, 1])
    (fun ky => ([-1, 0, 1].map (fun kx =>
      if 0 ≤ x + kx ∧ x + kx < width ∧ 0 ≤ y + ky ∧ y + ky < height then
        ch (img.At (x + kx) (y + ky)) else 0)).sum)
    (65535 * 3) hrow (fun t k ht => hinner k t ht) [-1, 0, 1] { R := 0, G := 0, B := 0 }
    (by rw [h0]; decide)
  have hle := sum_map_le _ (65535 * 3) hrow [-1, 0, 1]
  have e : loopSum img width height ch x y = ([-1, 0, 1].map (fun ky =>
      ([-1, 0, 1].map (fun kx =>
        if 0 ≤ x + kx ∧ x + kx < width ∧ 0 ≤ y + ky ∧ y + ky < height then
          ch (img.At (x + kx) (y + ky)) else 0)).sum)).sum := by
    unfold loopSum
    simp only [sum_kernel, List.map_cons, List.map_nil, List.sum_cons, List.sum_nil,
      Nat.add_zero]
  unfold kernelTotals
  rw [kernel_range, houter, h0, Nat.zero_add, e]
  refine ⟨rfl, ?_⟩
  simpa using hle

theorem kernelStep_R (img : image.Image) (width height x y ky : Int) (tot : Totals)
    (kx : Int) :
    (kernelStep img width height x y ky tot kx).R =
      if x + kx ≥ 0 ∧ x + kx < width ∧ y + ky ≥ 0 ∧ y + ky < height then
        uint32 (tot.R + (img.At (x + kx) (y + ky)).r)
      else tot.R := by
  unfold kernelStep
  dsimp only
  split <;> rfl

theorem kernelStep_G (img : image.Image) (width height x y ky : Int) (tot : Totals)
    (kx : Int) :
    (kernelStep img width height x y ky tot kx).G =
      if x + kx ≥ 0 ∧ x + kx < width ∧ y + ky ≥ 0 ∧ y + ky < height then
        uint32 (tot.G + (img.At (x + kx) (y + ky)).g)
      else tot.G := by
  unfold kernelStep
  dsimp only
  split <;> rfl

theorem kernelStep_B (img : image.Image) (width height x y ky : Int) (tot : Totals)
    (kx : Int) :
    (kernelStep img width height x y ky tot kx).B =
      if x + kx ≥ 0 ∧ x + kx < width ∧ y + ky ≥ 0 ∧ y + ky < height then
        uint32 (tot.B + (img.At (x + kx) (y + ky)).b)
      else tot.B := by
  unfold kernelStep
  dsimp only
  split <;> rfl

/-! ## Splitting a path at its dots -/

theorem splitChars_ne_nil (sep : Char) (l : List Char) : strings.splitChars sep l ≠ [] := by
  cases l with
  | nil => simp [strings.splitChars]
  | cons c cs =>
    unfold strings.splitChars
    split
    · simp
    · split <;> simp

theorem splitChars_no_sep (sep : Char) (l : List Char) (h : sep ∉ l) :
    strings.splitChars sep l = [l] := by
  induction l with
  | nil => rfl
  | cons c cs ih =>
    have hc : ¬ c = sep := fun e => h (e ▸ List.mem_cons_self _ _)
    have hcs : sep ∉ cs := fun e => h (List.mem_cons_of_mem _ e)
    unfold strings.splitChars
    rw [if_neg hc, ih hcs]

theorem splitChars_cons (sep c : Char) (cs : List Char) :
    strings.splitChars sep (c :: cs) =
      if c = sep then [] :: strings.splitChars sep cs
      else
        match strings.splitChars sep cs with
        | [] => [[c]]
        | p :: ps => (c :: p) :: ps := by
  rw [strings.splitChars]

theorem splitChars_after_sep (sep : Char) (rest : List Char) (pre : List Char) :
    2 ≤ (strings.splitChars sep (pre ++ sep :: rest)).length ∧
      (strings.splitChars sep (pre ++ sep :: rest)).getLast? =
        (strings.splitChars sep rest).getLast? := by
  induction pre with
  | nil =>
    have hne := splitChars_ne_nil sep rest
    rw [List.nil_append, splitChars_cons, if_pos rfl]
    cases hs : strings.splitChars sep rest with
    | nil => exact absurd hs hne
    | cons p ps =>
      constructor
      · simp
      · rw [List.getLast?_cons_cons]
  | cons c cs ih =>
    obtain ⟨h1, h2⟩ := ih
    rw [List.cons_append, splitChars_cons]
    cases hs : strings.splitChars sep (cs ++ sep :: rest) with
    | nil => rw [hs] at h1; simp at h1
    | cons p ps =>
      rw [hs] at h1 h2
      cases ps with
      | nil => simp at h1
      | cons q qs =>
        rw [List.getLast?_cons_cons] at h2
        split
        · constructor
          · simp
          · rw [List.getLast?_cons_cons, List.getLast?_cons_cons]
            exact h2
        · constructor
          · simp
          · simp only []
            rw [List.getLast?_cons_cons]
            exact h2

theorem getExtension_no_dot (filePath : String) (h : '.' ∉ filePath.data) :
    getExtension filePath = "" := by
  unfold getExtension strings.Split
  rw [splitChars_no_sep _ _ h]
  rfl

theorem getExtension_after_dot (pre ext : String) (h : '.' ∉ ext.data) :
    getExtension (pre ++ "." ++ ext) = ext := by
  unfold getExtension strings.Split
  have hd : (pre ++ "." ++ ext).data = pre.data ++ '.' :: ext.data := by
    simp [String.data_append]
  rw [hd]
  obtain ⟨h1, h2⟩ := splitChars_after_sep '.' ext.data pre.data
  rw [splitChars_no_sep _ _ h] at h2
  dsimp only
  rw [List.getD_eq_getElem?_getD, ← List.getLast?_eq_getElem?, List.getLast?_map, h2,
    List.length_map, if_pos (by omega)]
  rfl

/-! ## The averaged pixel -/

theorem kernel_area : uint32 (kernelSize * kernelSize).toNat = 9 := by
  decide

theorem scale_exact (s : Nat) (hs : s ≤ 9 * 65535) :
    uint8 ((s / 9) >>> 8) = s / 9 / 256 ∧ s / 9 / 256 ≤ 255 := by
  rw [Nat.shiftRight_eq_div_pow]
  unfold uint8
  omega

/-- With 16-bit samples at the positions the loops read, the colour written at
`(x, y)` is the exact sum divided by 9 and then by 256, alpha 255. -/
theorem noisePixel_exact (img : image.Image) (width height x y : Int)
    (h16 : ∀ u v, 0 ≤ u → u < width → 0 ≤ v → v < height → (img.At u v).SixteenBit) :
    noisePixel img width height x y =
      { R := loopSum img width height color.Color.r x y / 9 / 256
        G := loopSum img width height color.Color.g x y / 9 / 256
        B := loopSum img width height color.Color.b x y / 9 / 256
        A := 255 } := by
  obtain ⟨r1, r2⟩ := kernelTotals_channel img width height x y Totals.R color.Color.r
    (fun ky tot kx => kernelStep_R img width height x y ky tot kx) rfl
    (fun u v a b c d => (h16 u v a b c d).1)
  obtain ⟨g1, g2⟩ := kernelTotals_channel img width height x y Totals.G color.Color.g
    (fun ky tot kx => kernelStep_G img width height x y ky tot kx) rfl
    (fun u v a b c d => (h16 u v a b c d).2.1)
  obtain ⟨b1, b2⟩ := kernelTotals_channel img width height x y Totals.B color.Color.b
    (fun ky tot kx => kernelStep_B img width height x y ky tot kx) rfl
    (fun u v a b c d => (h16 u v a b c d).2.2.1)
  unfold noisePixel
  dsimp only
  rw [kernel_area, r1, g1, b1, (scale_exact _ r2).1, (scale_exact _ g2).1,
    (scale_exact _ b2).1]

/-- For bounds at the origin the loop guard is the in-bounds test. -/
theorem guard_iff_In (img : image.Image) (horigin : img.Bounds.Min = ⟨0, 0⟩) (u v : Int) :
    (0 ≤ u ∧ u < img.Bounds.Dx ∧ 0 ≤ v ∧ v < img.Bounds.Dy) ↔
      (image.Point.mk u v).In img.Bounds := by
  unfold image.Point.In image.Rectangle.Dx image.Rectangle.Dy
  rw [horigin]
  simp only [sub_zero]

theorem loopSum_eq_windowSum (img : image.Image) (horigin : img.Bounds.Min = ⟨0, 0⟩)
    (ch : color.Color → Nat) (x y : Int) :
    loopSum img img.Bounds.Dx img.Bounds.Dy ch x y = windowSum img ch x y := by
  unfold loopSum windowSum
  simp only [guard_iff_In img horigin]

/-- For bounds at the origin and 16-bit samples, `removeNoise` returns a raster
with the input's bounds whose pixel at every in-bounds `(x, y)` has in red,
green and blue the in-bounds window sum of that channel divided by 9 and then
by 256, and alpha 255. -/
theorem removeNoise_origin (img : image.Image) (horigin : img.Bounds.Min = ⟨0, 0⟩)
    (hw : 0 ≤ img.Bounds.Dx) (hh : 0 ≤ img.Bounds.Dy)
    (h16 : ∀ u v, (image.Point.mk u v).In img.Bounds → (img.At u v).SixteenBit) :
    ∃ out, removeNoise img = some out ∧ out.Rect = img.Bounds ∧
      ∀ x y, (image.Point.mk x y).In img.Bounds →
        out.RGBAAt x y =
          { R := windowSum img color.Color.r x y / 9 / 256
            G := windowSum img color.Color.g x y / 9 / 256
            B := windowSum img color.Color.b x y / 9 / 256
            A := 255 } := by
  obtain ⟨out, h1, _, h3, h4⟩ := removeNoise_pixels img hw hh
  refine ⟨out, h1, h3, ?_⟩
  intro x y hin
  have hg := (guard_iff_In img horigin x y).mpr hin
  rw [h4 x y, if_pos ⟨⟨hg.2.2.1, hg.2.2.2⟩, ⟨hg.1, hg.2.1⟩, hin⟩,
    noisePixel_exact img _ _ x y
      (fun u v a b c d => h16 u v ((guard_iff_In img horigin u v).mp ⟨a, b, c, d⟩)),
    loopSum_eq_windowSum img horigin, loopSum_eq_windowSum img horigin,
    loopSum_eq_windowSum img horigin]

/-- Claim C1: for a raster of width and height at least 1 with bounds at the
origin and 16-bit samples, `removeNoise` returns, and the pixel it writes at an
in-bounds `(x, y)` has in red, green and blue the in-bounds window sum of that
channel divided by 9 and then by 256 (the divisor is 9 whatever the number of
in-bounds window positions), and alpha 255. -/
theorem C1_removeNoise_window_average (img : image.Image) (x y : Int)
    (horigin : img.Bounds.Min = ⟨0, 0⟩)
    (hw : 1 ≤ img.Bounds.Dx) (hh : 1 ≤ img.Bounds.Dy)
    (h16 : ∀ u v, (image.Point.mk u v).In img.Bounds → (img.At u v).SixteenBit)
    (hin : (image.Point.mk x y).In img.Bounds) :
    ∃ out, removeNoise img = some out ∧
      out.RGBAAt x y =
        { R := windowSum img color.Color.r x y / 9 / 256
          G := windowSum img color.Color.g x y / 9 / 256
          B := windowSum img color.Color.b x y / 9 / 256
          A := 255 } := by
  obtain ⟨out, hret, _, hpix⟩ := removeNoise_origin img horigin (by omega) (by omega) h16
  exact ⟨out, hret, hpix x y hin⟩

/-- The corner `(0, 0)` of the 2x2 sample raster, an instance of claim C1. -/
theorem C1_removeNoise_window_average_witness :
    ∃ out, removeNoise sampleRaster = some out ∧
      out.RGBAAt 0 0 =
        { R := windowSum sampleRaster color.Color.r 0 0 / 9 / 256
          G := windowSum sampleRaster color.Color.g 0 0 / 9 / 256
          B := windowSum sampleRaster color.Color.b 0 0 / 9 / 256
          A := 255 } :=
  C1_removeNoise_window_average sampleRaster 0 0 rfl (by decide) (by decide)
    (fun u v _ => by unfold sampleRaster; dsimp only; split <;> decide) (by decide)

/-- Claim C3, evaluated where it fails: for the one-pixel raster with bounds
`(1,1)-(2,2)`, `removeNoise` returns a raster with the same bounds whose only
pixel, `(1, 1)`, was never written and has alpha 0. The loops run over
`0 <= x < width`, `0 <= y < height` instead of over the bounds, which is what
`removeBackground` does: it keeps that pixel. -/
theorem C3_removeNoise_shifted_bounds_unwritten :
    removeNoise shiftedPixel.toImage =
        some { Pix := [0, 0, 0, 0], Stride := 4, Rect := shiftedPixel.toImage.Bounds } ∧
      (image.Point.mk 1 1).In shiftedPixel.toImage.Bounds ∧
      (removeNoise shiftedPixel.toImage).map (fun out => (out.RGBAAt 1 1).A) = some 0 ∧
      (removeBackground shiftedPixel.toImage).map (fun out => out.RGBAAt 1 1) =
        some { R := 200, G := 100, B := 50, A := 255 } := by
  decide

/-- Claim C9: with 16-bit samples everywhere, each accumulator of the kernel
loops holds the exact sum of the samples it was given (no `uint32` addition
wrapped), that sum is at most `9 * 65535 < 2^32`, the value `(sum div 9) div 256`
is at most 255, and the three `uint8` conversions of the written colour keep
that value. -/
theorem C9_removeNoise_arithmetic_exact (img : image.Image) (x y : Int)
    (h16 : ∀ u v, (img.At u v).SixteenBit) :
    (kernelTotals img img.Bounds.Dx img.Bounds.Dy x y =
        { R := loopSum img img.Bounds.Dx img.Bounds.Dy color.Color.r x y
          G := loopSum img img.Bounds.Dx img.Bounds.Dy color.Color.g x y
          B := loopSum img img.Bounds.Dx img.Bounds.Dy color.Color.b x y }) ∧
      (∀ ch ∈ [color.Color.r, color.Color.g, color.Color.b],
        loopSum img img.Bounds.Dx img.Bounds.Dy ch x y ≤ 9 * 65535 ∧
        loopSum img img.Bounds.Dx img.Bounds.Dy ch x y < 4294967296 ∧
        loopSum img img.Bounds.Dx img.Bounds.Dy ch x y / 9 / 256 ≤ 255) ∧
      noisePixel img img.Bounds.Dx img.Bounds.Dy x y =
        { R := loopSum img img.Bounds.Dx img.Bounds.Dy color.Color.r x y / 9 / 256
          G := loopSum img img.Bounds.Dx img.Bounds.Dy color.Color.g x y / 9 / 256
          B := loopSum img img.Bounds.Dx img.Bounds.Dy color.Color.b x y / 9 / 256
          A := 255 } := by
  obtain ⟨r1, r2⟩ := kernelTotals_channel img img.Bounds.Dx img.Bounds.Dy x y Totals.R
    color.Color.r (fun ky tot kx => kernelStep_R img _ _ x y ky tot kx) rfl
    (fun u v _ _ _ _ => (h16 u v).1)
  obtain ⟨g1, g2⟩ := kernelTotals_channel img img.Bounds.Dx img.Bounds.Dy x y Totals.G
    color.Color.g (fun ky tot kx => kernelStep_G img _ _ x y ky tot kx) rfl
    (fun u v _ _ _ _ => (h16 u v).2.1)
  obtain ⟨b1, b2⟩ := kernelTotals_channel img img.Bounds.Dx img.Bounds.Dy x y Totals.B
    color.Color.b (fun ky tot kx => kernelStep_B img _ _ x y ky tot kx) rfl
    (fun u v _ _ _ _ => (h16 u v).2.2.1)
  refine ⟨?_, ?_, noisePixel_exact img _ _ x y (fun u v _ _ _ _ => h16 u v)⟩
  · rw [← r1, ← g1, ← b1]
  · intro ch hch
    simp only [List.mem_cons, List.mem_singleton, List.not_mem_nil, or_false] at hch
    rcases hch with rfl | rfl | rfl
    · exact ⟨r2, by omega, (scale_exact _ r2).2⟩
    · exact ⟨g2, by omega, (scale_exact _ g2).2⟩
    · exact ⟨b2, by omega, (scale_exact _ b2).2⟩

/-- The accumulators and the written colour at `(1, 1)` of the 2x2 sample raster,
an instance of claim C9. -/
theorem C9_removeNoise_arithmetic_exact_witness :
    kernelTotals sampleRaster 2 2 1 1 = { R := 142635, G := 109996, B := 77100 } ∧
      noisePixel sampleRaster 2 2 1 1 = { R := 61, G := 47, B := 33, A := 255 } := by
  have h := C9_removeNoise_arithmetic_exact sampleRaster 1 1
    (fun u v => by unfold sampleRaster; dsimp only; split <;> decide)
  exact ⟨h.1.trans (by decide), h.2.2.trans (by decide)⟩

/-! ## Eight-bit colours -/

theorem widen_byte (c : Nat) (hc : c < 256) :
    uint32 c ||| uint32 (uint32 c <<< 8) = c * 257 := by
  have h1 : uint32 c = c := Nat.mod_eq_of_lt (by omega)
  have h2 : c <<< 8 = 2 ^ 8 * c := by rw [Nat.shiftLeft_eq, Nat.mul_comm]
  have h3 : uint32 (2 ^ 8 * c) = 2 ^ 8 * c := Nat.mod_eq_of_lt (by omega)
  rw [h1, h2, h3, Nat.lor_comm, ← Nat.mul_add_lt_is_or (by omega) c]
  omega

theorem RGBA_samples (r g b a : Nat) (hr : r ≤ 255) (hg : g ≤ 255) (hb : b ≤ 255)
    (ha : a ≤ 255) :
    (color.RGBA.mk r g b a).RGBA =
      { r := r * 257, g := g * 257, b := b * 257, a := a * 257 } := by
  unfold color.RGBA.RGBA
  dsimp only
  rw [widen_byte r (by omega), widen_byte g (by omega), widen_byte b (by omega),
    widen_byte a (by omega)]

theorem RGBA_sixteenBit (r g b a : Nat) (hr : r ≤ 255) (hg : g ≤ 255) (hb : b ≤ 255)
    (ha : a ≤ 255) : ((color.RGBA.mk r g b a).RGBA).SixteenBit := by
  rw [RGBA_samples r g b a hr hg hb ha]
  unfold color.Color.SixteenBit
  dsimp only
  omega

/-- A 1x1 raster with bounds `(0,0)-(1,1)` whose pixel is the 8-bit colour
`(r, g, b, 255)`: `removeNoise` returns a 1x1 raster whose pixel is
`(r div 9, g div 9, b div 9, 255)`, the window sum of each channel being the one
sample `c * 257` and `(c * 257) div 9 div 256` being `c div 9`. -/
theorem removeNoise_single_pixel_origin (img : image.Image) (r g b : Nat)
    (hbounds : img.Bounds = { Min := { X := 0, Y := 0 }, Max := { X := 1, Y := 1 } })
    (hr : r ≤ 255) (hg : g ≤ 255) (hb : b ≤ 255)
    (hpix : img.At 0 0 = (color.RGBA.mk r g b 255).RGBA) :
    ∃ out, removeNoise img = some out ∧
      out.Rect = { Min := { X := 0, Y := 0 }, Max := { X := 1, Y := 1 } } ∧
      out.RGBAAt 0 0 = { R := r / 9, G := g / 9, B := b / 9, A := 255 } ∧
      windowSum img color.Color.r 0 0 = r * 257 ∧ r * 257 / 9 / 256 = r / 9 ∧
      windowSum img color.Color.g 0 0 = g * 257 ∧ g * 257 / 9 / 256 = g / 9 ∧
      windowSum img color.Color.b 0 0 = b * 257 ∧ b * 257 / 9 / 256 = b / 9 := by
  have horigin : img.Bounds.Min = ⟨0, 0⟩ := by rw [hbounds]
  have hin : (image.Point.mk 0 0).In img.Bounds := by rw [hbounds]; decide
  have hsame : ∀ u v, (image.Point.mk u v).In img.Bounds → img.At u v = img.At 0 0 := by
    intro u v h
    rw [hbounds] at h
    obtain ⟨a1, a2, a3, a4⟩ := h
    dsimp only at a1 a2 a3 a4
    have hu : u = 0 := by omega
    have hv : v = 0 := by omega
    rw [hu, hv]
  have h16 : ∀ u v, (image.Point.mk u v).In img.Bounds → (img.At u v).SixteenBit := by
    intro u v h
    rw [hsame u v h, hpix]
    exact RGBA_sixteenBit r g b 255 hr hg hb (by omega)
  obtain ⟨out, h1, hrect, hall⟩ := removeNoise_origin img horigin
    (by rw [hbounds]; decide) (by rw [hbounds]; decide) h16
  have h2 := hall 0 0 hin
  have hsum : ∀ ch : color.Color → Nat, windowSum img ch 0 0 = ch (img.At 0 0) := by
    intro ch
    unfold windowSum
    simp [sum_kernel, image.Point.In, hbounds]
  have hs := RGBA_samples r g b 255 hr hg hb (by omega)
  have er : windowSum img color.Color.r 0 0 = r * 257 := by rw [hsum, hpix, hs]
  have eg : windowSum img color.Color.g 0 0 = g * 257 := by rw [hsum, hpix, hs]
  have eb : windowSum img color.Color.b 0 0 = b * 257 := by rw [hsum, hpix, hs]
  have ar : r * 257 / 9 / 256 = r / 9 := by omega
  have ag : g * 257 / 9 / 256 = g / 9 := by omega
  have ab : b * 257 / 9 / 256 = b / 9 := by omega
  refine ⟨out, h1, hrect.trans hbounds, ?_, er, ar, eg, ag, eb, ab⟩
  rw [h2, er, eg, eb, ar, ag, ab]

/-- The 1x1 raster at the origin with the pixel (90, 200, 7, 255) comes back as
(10, 22, 0, 255). -/
theorem removeNoise_single_pixel_origin_example :
    ∃ out, removeNoise tealPixel = some out ∧
      out.RGBAAt 0 0 = { R := 10, G := 22, B := 0, A := 255 } := by
  obtain ⟨out, h1, _, h3, _⟩ := removeNoise_single_pixel_origin tealPixel 90 200 7 rfl
    (by decide) (by decide) (by decide) rfl
  exact ⟨out, h1, h3⟩

/-- Claim C5, evaluated where it fails: the raster with bounds `(2,3)-(3,4)` is
1x1 and its single pixel is the 8-bit colour (90, 180, 27, 255), for which the
claim promises (10, 20, 3, 255). `removeNoise` returns a 1x1 raster with those
bounds whose pixel is (0, 0, 0, 0): its loops visit `(0, 0)`, not `(2, 3)`, read
outside the bounds and write outside the bounds. -/
theorem C5_removeNoise_single_pixel_shifted :
    offsetPixel.toImage.Bounds.Dx = 1 ∧ offsetPixel.toImage.Bounds.Dy = 1 ∧
      (image.Point.mk 2 3).In offsetPixel.toImage.Bounds ∧
      offsetPixel.toImage.At 2 3 = (color.RGBA.mk 90 180 27 255).RGBA ∧
      removeNoise offsetPixel.toImage =
        some { Pix := [0, 0, 0, 0], Stride := 4, Rect := offsetPixel.toImage.Bounds } ∧
      (removeNoise offsetPixel.toImage).map (fun out => out.RGBAAt 2 3) =
        some { R := 0, G := 0, B := 0, A := 0 } ∧
      (removeNoise offsetPixel.toImage).map (fun out => out.RGBAAt 2 3) ≠
        some { R := 90 / 9, G := 180 / 9, B := 27 / 9, A := 255 } := by
  decide

/-! ## Uniform rasters -/

theorem kernel_offsets : ∀ k ∈ ({-1, 0, 1} : Finset Int), -1 ≤ k ∧ k ≤ 1 := by
  decide

/-- A window that lies inside the image and sees the same sample nine times. -/
theorem windowSum_interior (img : image.Image) (ch : color.Color → Nat) (s : Nat)
    (x y : Int)
    (hall : ∀ kx ky, -1 ≤ kx → kx ≤ 1 → -1 ≤ ky → ky ≤ 1 →
      (image.Point.mk (x + kx) (y + ky)).In img.Bounds ∧ ch (img.At (x + kx) (y + ky)) = s) :
    windowSum img ch x y = 9 * s := by
  unfold windowSum
  rw [Finset.sum_congr rfl (fun ky hky => Finset.sum_congr rfl (fun kx hkx =>
    show (if (image.Point.mk (x + kx) (y + ky)).In img.Bounds then
        ch (img.At (x + kx) (y + ky)) else 0) = s by
      have h := hall kx ky (kernel_offsets kx hkx).1 (kernel_offsets kx hkx).2
        (kernel_offsets ky hky).1 (kernel_offsets ky hky).2
      rw [if_pos h.1, h.2]))]
  simp only [sum_kernel]
  omega

/-- A window whose in-bounds samples are at most `s` sums to at most `9 * s`. -/
theorem windowSum_le (img : image.Image) (ch : color.Color → Nat) (s : Nat) (x y : Int)
    (hall : ∀ u v, (image.Point.mk u v).In img.Bounds → ch (img.At u v) ≤ s) :
    windowSum img ch x y ≤ 9 * s := by
  unfold windowSum
  have hle : ∀ ky kx, (if (image.Point.mk (x + kx) (y + ky)).In img.Bounds then
      ch (img.At (x + kx) (y + ky)) else 0) ≤ s := by
    intro ky kx
    split
    · rename_i h
      exact hall _ _ h
    · omega
  simp only [sum_kernel]
  have a1 := hle (-1) (-1)
  have a2 := hle (-1) 0
  have a3 := hle (-1) 1
  have a4 := hle 0 (-1)
  have a5 := hle 0 0
  have a6 := hle 0 1
  have a7 := hle 1 (-1)
  have a8 := hle 1 0
  have a9 := hle 1 1
  omega

/-- Claim C4 fails: the 1x1 white raster is uniform and fully covered, and
`removeNoise` turns its pixel into (28, 28, 28, 255), not (255, 255, 255, 255). -/
theorem C4_uniform_raster_darkened :
    whitePixel.Bounds.Min = { X := 0, Y := 0 } ∧
      1 ≤ whitePixel.Bounds.Dx ∧ 1 ≤ whitePixel.Bounds.Dy ∧
      (∀ u v, whitePixel.At u v = (color.RGBA.mk 255 255 255 255).RGBA) ∧
      (image.Point.mk 0 0).In whitePixel.Bounds ∧
      (removeNoise whitePixel).map (fun out => out.RGBAAt 0 0) =
        some { R := 28, G := 28, B := 28, A := 255 } ∧
      (removeNoise whitePixel).map (fun out => out.RGBAAt 0 0) ≠
        some { R := 255, G := 255, B := 255, A := 255 } := by
  refine ⟨rfl, by decide, by decide, fun _ _ => rfl, by decide, by decide, by decide⟩

/-- Claim C4 as amended: for a raster of width and height at least 1 with bounds
at the origin in which every pixel is the 8-bit colour `(r, g, b, 255)`,
`removeNoise` returns a raster with the same bounds in which every pixel whose
whole 3x3 window lies inside the image is `(r, g, b, 255)`, and every pixel has
alpha 255 and no channel above the input's. -/
theorem C4_removeNoise_uniform_interior (img : image.Image) (r g b : Nat)
    (horigin : img.Bounds.Min = ⟨0, 0⟩)
    (hw : 1 ≤ img.Bounds.Dx) (hh : 1 ≤ img.Bounds.Dy)
    (hr : r ≤ 255) (hg : g ≤ 255) (hb : b ≤ 255)
    (huni : ∀ u v, (image.Point.mk u v).In img.Bounds →
      img.At u v = (color.RGBA.mk r g b 255).RGBA) :
    ∃ out, removeNoise img = some out ∧ out.Rect = img.Bounds ∧
      (∀ x y, 1 ≤ x → x + 1 < img.Bounds.Dx → 1 ≤ y → y + 1 < img.Bounds.Dy →
        out.RGBAAt x y = { R := r, G := g, B := b, A := 255 }) ∧
      (∀ x y, (image.Point.mk x y).In img.Bounds →
        (out.RGBAAt x y).A = 255 ∧ (out.RGBAAt x y).R ≤ r ∧ (out.RGBAAt x y).G ≤ g ∧
          (out.RGBAAt x y).B ≤ b) := by
  have hs := RGBA_samples r g b 255 hr hg hb (by omega)
  have h16 : ∀ u v, (image.Point.mk u v).In img.Bounds → (img.At u v).SixteenBit := by
    intro u v h
    rw [huni u v h]
    exact RGBA_sixteenBit r g b 255 hr hg hb (by omega)
  obtain ⟨out, h1, hrect, hpix⟩ := removeNoise_origin img horigin (by omega) (by omega) h16
  refine ⟨out, h1, hrect, ?_, ?_⟩
  · intro x y hx1 hx2 hy1 hy2
    have hin : ∀ kx ky, -1 ≤ kx → kx ≤ 1 → -1 ≤ ky → ky ≤ 1 →
        (image.Point.mk (x + kx) (y + ky)).In img.Bounds := by
      intro kx ky a1 a2 a3 a4
      exact (guard_iff_In img horigin _ _).mp ⟨by omega, by omega, by omega, by omega⟩
    have h00 := hin 0 0 (by decide) (by decide) (by decide) (by decide)
    rw [add_zero, add_zero] at h00
    rw [hpix x y h00,
      windowSum_interior img color.Color.r (r * 257) x y
        (fun kx ky a1 a2 a3 a4 =>
          ⟨hin kx ky a1 a2 a3 a4, by rw [huni _ _ (hin kx ky a1 a2 a3 a4), hs]⟩),
      windowSum_interior img color.Color.g (g * 257) x y
        (fun kx ky a1 a2 a3 a4 =>
          ⟨hin kx ky a1 a2 a3 a4, by rw [huni _ _ (hin kx ky a1 a2 a3 a4), hs]⟩),
      windowSum_interior img color.Color.b (b * 257) x y
        (fun kx ky a1 a2 a3 a4 =>
          ⟨hin kx ky a1 a2 a3 a4, by rw [huni _ _ (hin kx ky a1 a2 a3 a4), hs]⟩)]
    have er : 9 * (r * 257) / 9 / 256 = r := by omega
    have eg : 9 * (g * 257) / 9 / 256 = g := by omega
    have eb : 9 * (b * 257) / 9 / 256 = b := by omega
    rw [er, eg, eb]
  · intro x y hin
    rw [hpix x y hin]
    have br := windowSum_le img color.Color.r (r * 257) x y
      (fun u v h => by rw [huni u v h, hs])
    have bg := windowSum_le img color.Color.g (g * 257) x y
      (fun u v h => by rw [huni u v h, hs])
    have bb := windowSum_le img color.Color.b (b * 257) x y
      (fun u v h => by rw [huni u v h, hs])
    dsimp only
    omega

/-- The 3x3 raster of colour (120, 60, 240, 255), an instance of the amended
claim C4. -/
theorem C4_removeNoise_uniform_interior_witness :
    ∃ out, removeNoise uniformRaster = some out ∧ out.Rect = uniformRaster.Bounds ∧
      (∀ x y, 1 ≤ x → x + 1 < uniformRaster.Bounds.Dx → 1 ≤ y →
        y + 1 < uniformRaster.Bounds.Dy →
        out.RGBAAt x y = { R := 120, G := 60, B := 240, A := 255 }) ∧
      (∀ x y, (image.Point.mk x y).In uniformRaster.Bounds →
        (out.RGBAAt x y).A = 255 ∧ (out.RGBAAt x y).R ≤ 120 ∧ (out.RGBAAt x y).G ≤ 60 ∧
          (out.RGBAAt x y).B ≤ 240) :=
  C4_removeNoise_uniform_interior uniformRaster 120 60 240 rfl (by decide) (by decide)
    (by decide) (by decide) (by decide) (fun _ _ _ => rfl)

/-! ## The background matte -/

/-- With 16-bit samples the four `uint8` conversions of `removeBackground` are
plain divisions by 256. -/
theorem backgroundPixel_sixteenBit (c : color.Color) (h16 : c.SixteenBit) :
    backgroundPixel c =
      if c.r / 256 > 180 ∧ c.g / 256 > 180 ∧ c.b / 256 > 180 ∧ c.a / 256 > 180 then
        { R := 0, G := 0, B := 0, A := 0 }
      else { R := c.r / 256, G := c.g / 256, B := c.b / 256, A := c.a / 256 } := by
  obtain ⟨h1, h2, h3, h4⟩ := h16
  have e : ∀ s, s ≤ 65535 → uint8 (s >>> 8) = s / 256 := by
    intro s hs
    rw [Nat.shiftRight_eq_div_pow]
    unfold uint8
    omega
  unfold backgroundPixel threshold
  dsimp only
  rw [e _ h1, e _ h2, e _ h3, e _ h4]

/-- Claim C2: for an in-bounds position whose input samples are 16-bit, the
pixel `removeBackground` writes is (0,0,0,0) when all four samples divided by
256 exceed 180 and is the four divided samples otherwise. The comparison is
strict: a pixel stored as 8-bit (200,200,200,200) becomes (0,0,0,0), while
(180,200,200,200) and (200,200,200,100) come back unchanged. -/
theorem C2_removeBackground_threshold (img : image.Image) (x y : Int)
    (hin : (image.Point.mk x y).In img.Bounds) (h16 : (img.At x y).SixteenBit) :
    ∃ out, removeBackground img = some out ∧
      out.RGBAAt x y =
        (if (img.At x y).r / 256 > 180 ∧ (img.At x y).g / 256 > 180 ∧
            (img.At x y).b / 256 > 180 ∧ (img.At x y).a / 256 > 180 then
          { R := 0, G := 0, B := 0, A := 0 }
        else
          { R := (img.At x y).r / 256, G := (img.At x y).g / 256
            B := (img.At x y).b / 256, A := (img.At x y).a / 256 }) ∧
      (img.At x y = (color.RGBA.mk 200 200 200 200).RGBA →
        out.RGBAAt x y = { R := 0, G := 0, B := 0, A := 0 }) ∧
      (img.At x y = (color.RGBA.mk 180 200 200 200).RGBA →
        out.RGBAAt x y = { R := 180, G := 200, B := 200, A := 200 }) ∧
      (img.At x y = (color.RGBA.mk 200 200 200 100).RGBA →
        out.RGBAAt x y = { R := 200, G := 200, B := 200, A := 100 }) := by
  have hx : 0 ≤ img.Bounds.Dx := by
    obtain ⟨a1, a2, _, _⟩ := hin
    dsimp only at a1 a2
    unfold image.Rectangle.Dx
    omega
  have hy : 0 ≤ img.Bounds.Dy := by
    obtain ⟨_, _, a3, a4⟩ := hin
    dsimp only at a3 a4
    unfold image.Rectangle.Dy
    omega
  obtain ⟨out, h1, _, _, h4⟩ := removeBackground_pixels img hx hy
  have hpix : out.RGBAAt x y = backgroundPixel (img.At x y) := by
    rw [h4 x y, if_pos hin]
  refine ⟨out, h1, ?_, ?_, ?_, ?_⟩
  · rw [hpix, backgroundPixel_sixteenBit _ h16]
  · intro h
    rw [hpix, h]
    decide
  · intro h
    rw [hpix, h]
    decide
  · intro h
    rw [hpix, h]
    decide

/-- The pixel `(1, 0)` of the 2x2 matte picture, an instance of claim C2. -/
theorem C2_removeBackground_threshold_witness :
    ∃ out, removeBackground mattePicture.toImage = some out ∧
      out.RGBAAt 1 0 =
        (if (mattePicture.toImage.At 1 0).r / 256 > 180 ∧
            (mattePicture.toImage.At 1 0).g / 256 > 180 ∧
            (mattePicture.toImage.At 1 0).b / 256 > 180 ∧
            (mattePicture.toImage.At 1 0).a / 256 > 180 then
          { R := 0, G := 0, B := 0, A := 0 }
        else
          { R := (mattePicture.toImage.At 1 0).r / 256
            G := (mattePicture.toImage.At 1 0).g / 256
            B := (mattePicture.toImage.At 1 0).b / 256
            A := (mattePicture.toImage.At 1 0).a / 256 }) ∧
      (mattePicture.toImage.At 1 0 = (color.RGBA.mk 200 200 200 200).RGBA →
        out.RGBAAt 1 0 = { R := 0, G := 0, B := 0, A := 0 }) ∧
      (mattePicture.toImage.At 1 0 = (color.RGBA.mk 180 200 200 200).RGBA →
        out.RGBAAt 1 0 = { R := 180, G := 200, B := 200, A := 200 }) ∧
      (mattePicture.toImage.At 1 0 = (color.RGBA.mk 200 200 200 100).RGBA →
        out.RGBAAt 1 0 = { R := 200, G := 200, B := 200, A := 100 }) :=
  C2_removeBackground_threshold mattePicture.toImage 1 0 (by decide) (by decide)

theorem narrow_widen (c : Nat) (hc : c < 256) : uint8 ((c * 257) >>> 8) = c := by
  have h8 : (2 : Nat) ^ 8 = 256 := by decide
  have hd : c * 257 / 256 = c := by omega
  rw [Nat.shiftRight_eq_div_pow, h8, hd]
  exact Nat.mod_eq_of_lt hc

/-- Running the matte on a colour it produced gives that colour back. -/
theorem backgroundPixel_fixed (c : color.Color) :
    backgroundPixel ((backgroundPixel c).RGBA) = backgroundPixel c := by
  have hlt : ∀ s, uint8 s < 256 := fun s => Nat.mod_lt _ (by decide)
  unfold backgroundPixel
  dsimp only
  split
  · decide
  · rename_i hkeep
    rw [RGBA_samples _ _ _ _ (by have := hlt (c.r >>> 8); omega)
      (by have := hlt (c.g >>> 8); omega) (by have := hlt (c.b >>> 8); omega)
      (by have := hlt (c.a >>> 8); omega)]
    dsimp only
    rw [narrow_widen _ (hlt _), narrow_widen _ (hlt _), narrow_widen _ (hlt _),
      narrow_widen _ (hlt _), if_neg hkeep]

/-- Claim C8, evaluated where it fails. Two rasters with the same bounds
`(1,1)-(3,3)`, an `*image.RGBA` and an `*image.YCbCr`, hold the same black
pixel at every position inside the bounds, so they agree on every in-bounds
position of every window. `removeBackground` gives the same pixel at `(1, 1)`
for both. `removeNoise` gives (0, 0, 0, 255) for the first and (0, 45, 0, 255)
for the second: its guard `0 <= nx < width`, `0 <= ny < height` lets through
`(0,0)`, `(1,0)` and `(0,1)`, which lie outside the bounds, where the two
rasters differ. -/
theorem C8_removeNoise_reads_outside_bounds :
    shiftedBlackRGBA.toImage.Bounds = shiftedBlackYCbCr.Bounds ∧
      (∀ u v, (image.Point.mk u v).In shiftedBlackYCbCr.Bounds →
        shiftedBlackRGBA.toImage.At u v = shiftedBlackYCbCr.At u v) ∧
      (removeBackground shiftedBlackRGBA.toImage).map (fun out => out.RGBAAt 1 1) =
        (removeBackground shiftedBlackYCbCr).map (fun out => out.RGBAAt 1 1) ∧
      (removeNoise shiftedBlackRGBA.toImage).map (fun out => out.RGBAAt 1 1) =
        some { R := 0, G := 0, B := 0, A := 255 } ∧
      (removeNoise shiftedBlackYCbCr).map (fun out => out.RGBAAt 1 1) =
        some { R := 0, G := 45, B := 0, A := 255 } ∧
      shiftedBlackRGBA.toImage.At 0 0 ≠ shiftedBlackYCbCr.At 0 0 := by
  refine ⟨rfl, ?_, by decide, by decide, by decide, by decide⟩
  intro u v h
  obtain ⟨h1, h2, h3, h4⟩ := h
  have e1 : (shiftedBlackYCbCr.Bounds.Min.X : Int) = 1 := rfl
  have e2 : (shiftedBlackYCbCr.Bounds.Max.X : Int) = 3 := rfl
  have e3 : (shiftedBlackYCbCr.Bounds.Min.Y : Int) = 1 := rfl
  have e4 : (shiftedBlackYCbCr.Bounds.Max.Y : Int) = 3 := rfl
  dsimp only at h1 h2 h3 h4
  rw [e1] at h1
  rw [e2] at h2
  rw [e3] at h3
  rw [e4] at h4
  have hu : u = 1 ∨ u = 2 := by omega
  have hv : v = 1 ∨ v = 2 := by omega
  rcases hu with rfl | rfl <;> rcases hv with rfl | rfl <;> decide

/-! ## Corners -/

theorem sum_kernel_two (f : Int → Nat) (d : Int) (hd : d = 1 ∨ d = -1) :
    ∑ k ∈ ({-1, 0, 1} : Finset Int), (if k = 0 ∨ k = d then f k else 0) = f 0 + f d := by
  rw [sum_kernel]
  rcases hd with rfl | rfl
  · simp
  · simp
    omega

/-- At a corner of an image of width and height at least 2, the in-bounds
window positions are the corner and its three inner neighbours. -/
theorem windowSum_corner (img : image.Image) (horigin : img.Bounds.Min = ⟨0, 0⟩)
    (hw : 2 ≤ img.Bounds.Dx) (hh : 2 ≤ img.Bounds.Dy) (ch : color.Color → Nat)
    (cx cy dx dy : Int)
    (hcx : (cx = 0 ∧ dx = 1) ∨ (cx = img.Bounds.Dx - 1 ∧ dx = -1))
    (hcy : (cy = 0 ∧ dy = 1) ∨ (cy = img.Bounds.Dy - 1 ∧ dy = -1)) :
    windowSum img ch cx cy = cornerSum img ch cx cy dx dy := by
  have hdx : dx = 1 ∨ dx = -1 := by omega
  have hdy : dy = 1 ∨ dy = -1 := by omega
  have key : ∀ ky ∈ ({-1, 0, 1} : Finset Int), ∀ kx ∈ ({-1, 0, 1} : Finset Int),
      (if (image.Point.mk (cx + kx) (cy + ky)).In img.Bounds then
        ch (img.At (cx + kx) (cy + ky)) else 0) =
      if kx = 0 ∨ kx = dx then
        (if ky = 0 ∨ ky = dy then ch (img.At (cx + kx) (cy + ky)) else 0)
      else 0 := by
    intro ky hky kx hkx
    have bx := kernel_offsets kx hkx
    have by1 := kernel_offsets ky hky
    have hiff := guard_iff_In img horigin (cx + kx) (cy + ky)
    by_cases hin : (image.Point.mk (cx + kx) (cy + ky)).In img.Bounds
    · have hg := hiff.mpr hin
      rw [if_pos hin, if_pos (by omega), if_pos (by omega)]
    · have hng : ¬ (0 ≤ cx + kx ∧ cx + kx < img.Bounds.Dx ∧ 0 ≤ cy + ky ∧
          cy + ky < img.Bounds.Dy) := fun h => hin (hiff.mp h)
      rw [if_neg hin]
      by_cases h1 : kx = 0 ∨ kx = dx
      · rw [if_pos h1, if_neg (by omega)]
      · rw [if_neg h1]
  unfold windowSum
  rw [Finset.sum_congr rfl (fun ky hky => Finset.sum_congr rfl (fun kx hkx =>
    key ky hky kx hkx))]
  simp only [sum_kernel_two _ dx hdx, Finset.sum_add_distrib, sum_kernel_two _ dy hdy,
    add_zero]
  unfold cornerSum
  omega

/-- Dividing by 9 instead of 4 never gives more, and gives less as soon as the
true average is not zero. -/
theorem darker_than_average (s : Nat) :
    s / 9 / 256 ≤ s / 4 / 256 ∧ (s / 4 / 256 ≠ 0 → s / 9 / 256 < s / 4 / 256) := by
  omega

/-- Claim C6: for a raster of width and height at least 2 with bounds at the
origin and 16-bit samples, at each of the four corners the in-bounds window
positions are the corner and its three inner neighbours, and in each of red,
green and blue the value `removeNoise` writes is at most the true average
`(sum div 4) div 256` of those four samples, and strictly below it whenever
that average is not zero. -/
theorem C6_removeNoise_corner_darker (img : image.Image)
    (horigin : img.Bounds.Min = ⟨0, 0⟩)
    (hw : 2 ≤ img.Bounds.Dx) (hh : 2 ≤ img.Bounds.Dy)
    (h16 : ∀ u v, (image.Point.mk u v).In img.Bounds → (img.At u v).SixteenBit)
    (cx cy dx dy : Int)
    (hcx : (cx = 0 ∧ dx = 1) ∨ (cx = img.Bounds.Dx - 1 ∧ dx = -1))
    (hcy : (cy = 0 ∧ dy = 1) ∨ (cy = img.Bounds.Dy - 1 ∧ dy = -1)) :
    ∃ out, removeNoise img = some out ∧
      (image.Point.mk cx cy).In img.Bounds ∧
      (image.Point.mk (cx + dx) cy).In img.Bounds ∧
      (image.Point.mk cx (cy + dy)).In img.Bounds ∧
      (image.Point.mk (cx + dx) (cy + dy)).In img.Bounds ∧
      (∀ ch, windowSum img ch cx cy = cornerSum img ch cx cy dx dy) ∧
      ((out.RGBAAt cx cy).R ≤ cornerAverage img color.Color.r cx cy dx dy ∧
        (cornerAverage img color.Color.r cx cy dx dy ≠ 0 →
          (out.RGBAAt cx cy).R < cornerAverage img color.Color.r cx cy dx dy)) ∧
      ((out.RGBAAt cx cy).G ≤ cornerAverage img color.Color.g cx cy dx dy ∧
        (cornerAverage img color.Color.g cx cy dx dy ≠ 0 →
          (out.RGBAAt cx cy).G < cornerAverage img color.Color.g cx cy dx dy)) ∧
      ((out.RGBAAt cx cy).B ≤ cornerAverage img color.Color.b cx cy dx dy ∧
        (cornerAverage img color.Color.b cx cy dx dy ≠ 0 →
          (out.RGBAAt cx cy).B < cornerAverage img color.Color.b cx cy dx dy)) := by
  have hin : ∀ u v, 0 ≤ u → u < img.Bounds.Dx → 0 ≤ v → v < img.Bounds.Dy →
      (image.Point.mk u v).In img.Bounds :=
    fun u v a b c d => (guard_iff_In img horigin u v).mp ⟨a, b, c, d⟩
  have h00 := hin cx cy (by omega) (by omega) (by omega) (by omega)
  obtain ⟨out, h1, _, hall⟩ := removeNoise_origin img horigin (by omega) (by omega) h16
  have h2 := hall cx cy h00
  have hsum := fun ch => windowSum_corner img horigin hw hh ch cx cy dx dy hcx hcy
  refine ⟨out, h1, h00, hin _ _ (by omega) (by omega) (by omega) (by omega),
    hin _ _ (by omega) (by omega) (by omega) (by omega),
    hin _ _ (by omega) (by omega) (by omega) (by omega), hsum, ?_, ?_, ?_⟩
  · rw [h2, hsum color.Color.r, hsum color.Color.g, hsum color.Color.b]
    exact darker_than_average _
  · rw [h2, hsum color.Color.r, hsum color.Color.g, hsum color.Color.b]
    exact darker_than_average _
  · rw [h2, hsum color.Color.r, hsum color.Color.g, hsum color.Color.b]
    exact darker_than_average _

/-- The corner `(1, 0)` of the 2x2 sample raster, an instance of claim C6. -/
theorem C6_removeNoise_corner_darker_witness :
    ∃ out, removeNoise sampleRaster = some out ∧
      (image.Point.mk 1 0).In sampleRaster.Bounds ∧
      (image.Point.mk (1 + -1) 0).In sampleRaster.Bounds ∧
      (image.Point.mk 1 (0 + 1)).In sampleRaster.Bounds ∧
      (image.Point.mk (1 + -1) (0 + 1)).In sampleRaster.Bounds ∧
      (∀ ch, windowSum sampleRaster ch 1 0 = cornerSum sampleRaster ch 1 0 (-1) 1) ∧
      ((out.RGBAAt 1 0).R ≤ cornerAverage sampleRaster color.Color.r 1 0 (-1) 1 ∧
        (cornerAverage sampleRaster color.Color.r 1 0 (-1) 1 ≠ 0 →
          (out.RGBAAt 1 0).R < cornerAverage sampleRaster color.Color.r 1 0 (-1) 1)) ∧
      ((out.RGBAAt 1 0).G ≤ cornerAverage sampleRaster color.Color.g 1 0 (-1) 1 ∧
        (cornerAverage sampleRaster color.Color.g 1 0 (-1) 1 ≠ 0 →
          (out.RGBAAt 1 0).G < cornerAverage sampleRaster color.Color.g 1 0 (-1) 1)) ∧
      ((out.RGBAAt 1 0).B ≤ cornerAverage sampleRaster color.Color.b 1 0 (-1) 1 ∧
        (cornerAverage sampleRaster color.Color.b 1 0 (-1) 1 ≠ 0 →
          (out.RGBAAt 1 0).B < cornerAverage sampleRaster color.Color.b 1 0 (-1) 1)) :=
  C6_removeNoise_corner_darker sampleRaster rfl (by decide) (by decide)
    (fun u v _ => by unfold sampleRaster; dsimp only; split <;> decide)
    1 0 (-1) 1 (Or.inr ⟨by decide, rfl⟩) (Or.inl ⟨rfl, rfl⟩)

/-! ## Choosing the encoder -/

/-- Claim C7: `saveImage` picks the encoder from `getExtension filePath`, which
is the text after the last dot of the path and empty when the path has no dot.
Once the file is created, the extension `jpg` or `jpeg` calls the JPEG encoder
and nothing else, `png` calls the PNG encoder and nothing else, and every other
extension (the empty one too) calls no encoder and returns the error
`unsupported file format: ` followed by the extension. When the file cannot be
created no encoder is called either. -/
theorem C7_saveImage_encoder_selection (env : SaveEnv) (img : image.Image)
    (filePath : String) :
    ('.' ∉ filePath.data → getExtension filePath = "") ∧
    (∀ pre ext : String, filePath = pre ++ "." ++ ext → '.' ∉ ext.data →
      getExtension filePath = ext) ∧
    (env.createErr = none →
      (getExtension filePath = "jpg" ∨ getExtension filePath = "jpeg" →
        saveImage env img filePath =
          { encoded := [(Encoder.jpeg, img)], err := env.jpegErr }) ∧
      (getExtension filePath = "png" →
        saveImage env img filePath =
          { encoded := [(Encoder.png, img)], err := env.pngErr }) ∧
      (getExtension filePath ≠ "jpg" → getExtension filePath ≠ "jpeg" →
        getExtension filePath ≠ "png" →
        saveImage env img filePath =
          { encoded := []
            err := some ("unsupported file format: " ++ getExtension filePath) })) ∧
    (∀ e, env.createErr = some e →
      saveImage env img filePath = { encoded := [], err := some e }) := by
  refine ⟨getExtension_no_dot filePath, ?_, ?_, ?_⟩
  · intro pre ext hp hd
    rw [hp]
    exact getExtension_after_dot pre ext hd
  · intro hc
    refine ⟨?_, ?_, ?_⟩
    · intro h
      unfold saveImage
      rw [hc]
      dsimp only
      rw [if_pos h]
    · intro h
      unfold saveImage
      rw [hc]
      dsimp only
      rw [if_neg (by rw [h]; decide), if_pos h]
    · intro h1 h2 h3
      unfold saveImage
      rw [hc]
      dsimp only
      rw [if_neg (fun h => h.elim h1 h2), if_neg h3]
  · intro e hc
    unfold saveImage
    rw [hc]

/-- The two paths the handlers use and two paths without a supported extension,
instances of claim C7. -/
theorem C7_saveImage_encoder_selection_witness :
    getExtension "output.jpg" = "jpg" ∧
      saveImage { createErr := none, jpegErr := none, pngErr := none } whitePixel
          "output.jpg" = { encoded := [(Encoder.jpeg, whitePixel)], err := none } ∧
      saveImage { createErr := none, jpegErr := none, pngErr := none } whitePixel
          "output.png" = { encoded := [(Encoder.png, whitePixel)], err := none } ∧
      saveImage { createErr := none, jpegErr := none, pngErr := none } whitePixel
          "archive.tar.JPG" =
        { encoded := [], err := some "unsupported file format: JPG" } ∧
      saveImage { createErr := none, jpegErr := none, pngErr := none } whitePixel
          "output" = { encoded := [], err := some "unsupported file format: " } :=
  ⟨(C7_saveImage_encoder_selection { createErr := none, jpegErr := none, pngErr := none }
      whitePixel "output.jpg").2.1 "output" "jpg" rfl (by decide),
    ((C7_saveImage_encoder_selection { createErr := none, jpegErr := none, pngErr := none }
      whitePixel "output.jpg").2.2.1 rfl).1 (Or.inl (by decide)),
    ((C7_saveImage_encoder_selection { createErr := none, jpegErr := none, pngErr := none }
      whitePixel "output.png").2.2.1 rfl).2.1 (by decide),
    ((C7_saveImage_encoder_selection { createErr := none, jpegErr := none, pngErr := none }
      whitePixel "archive.tar.JPG").2.2.1 rfl).2.2 (by decide) (by decide) (by decide),
    ((C7_saveImage_encoder_selection { createErr := none, jpegErr := none, pngErr := none }
      whitePixel "output").2.2.1 rfl).2.2 (by decide) (by decide) (by decide)⟩
